import Mathlib

/-!
A shallow embedding of the blueprint templating engine of the studio
repository: tokenization of raw argument strings into literal and field
tokens (src/blueprint/parse.ts), schema derivation (src/blueprint/schema.ts)
and parameter-to-argv rendering (the render module, buildCommandArgs).
JavaScript strings are modelled as Lean strings (lists of characters),
JavaScript objects holding parameter values as association lists, and
thrown errors as the error branch of Except.
-/

set_option maxHeartbeats 1000000

/-- The open-brace character, written by code point to keep brace characters
out of string and character literals. -/
def lbraceChar : Char := Char.ofNat 123

/-- The close-brace character, written by code point. -/
def rbraceChar : Char := Char.ofNat 125

/-- Whitespace characters stripped by the trim operation on strings. -/
def isJsSpace (c : Char) : Bool := c == ' ' || c == '\t' || c == '\n' || c == '\r'

/-- Trim of a character list on both ends, modelling String.prototype.trim. -/
def trimChars (s : List Char) : List Char :=
  ((s.dropWhile isJsSpace).reverse.dropWhile isJsSpace).reverse

/-- Whether the first list is a leading segment of the second. -/
def beginsWith : List Char → List Char → Bool
  | [], _ => true
  | _ :: _, [] => false
  | p :: ps, c :: cs => p == c && beginsWith ps cs

/-- Whether the first list is a trailing segment of the second. -/
def finishesWith (suf s : List Char) : Bool :=
  beginsWith suf.reverse s.reverse

/-- Index of the first occurrence of a pattern in a character list,
modelling String.prototype.indexOf. -/
def idxOf (pattern : List Char) : List Char → Option Nat
  | [] => if beginsWith pattern [] then some 0 else none
  | c :: rest =>
    if beginsWith pattern (c :: rest) then some 0
    else (idxOf pattern rest).map (fun i => i + 1)

/-- Split on a separator character, modelling String.prototype.split with a
one-character separator: the result is always non-empty. -/
def splitOnChar (sep : Char) : List Char → List (List Char)
  | [] => [[]]
  | c :: rest =>
    match splitOnChar sep rest with
    | [] => []
    | h :: t => if c == sep then [] :: h :: t else (c :: h) :: t

/-- Join with a separator character, modelling Array.prototype.join. -/
def joinWithChar (sep : Char) : List (List Char) → List Char
  | [] => []
  | [x] => x
  | x :: y :: rest => x ++ sep :: joinWithChar sep (y :: rest)

/-- Attributes of one placeholder occurrence (the FieldToken class of
src/blueprint/types.ts). -/
structure FieldData where
  name : String
  description : String
  required : Bool
  isArray : Bool
  originalFlag : String
  deriving DecidableEq, Repr

/-- One token of a tokenized shell word: literal text or a field. -/
inductive Token where
  | text (value : String)
  | field (f : FieldData)
  deriving DecidableEq, Repr

/-- The parsed command template (the Blueprint class of
src/blueprint/types.ts). -/
structure Blueprint where
  baseCommand : String
  shellWords : List (List Token)
  deriving DecidableEq, Repr

/-- A found template span inside a word: start offset and the offset one
past the closing marker (the TemplateMatch interface of parse.ts; the
fields type, endMarker and markerLength are not read by the caller and are
returned separately by selectCandidate here). -/
structure TemplateMatch where
  start : Nat
  stop : Nat
  deriving DecidableEq, Repr

/-- The content phase of parseField of parse.ts: given the
delimiter-stripped content and the required flag of the enclosing
delimiter, parse name, description and modifiers, or signal failure on an
empty name. -/
def parseFieldContent (content : List Char) (required : Bool) : Option Token :=
    let parts := splitOnChar '#' content
    let name0 := trimChars (parts.headD [])
    if name0 = [] then none
    else
      let description0 :=
        if parts.length > 1 then trimChars (joinWithChar '#' parts.tail) else []
      let arrayInfo : Bool × List Char :=
        if finishesWith ['.', '.', '.'] name0 then
          (true, trimChars (name0.dropLast.dropLast.dropLast))
        else (false, name0)
      let flagInfo : List Char × List Char × List Char :=
        if !required && beginsWith ['-'] arrayInfo.2 then
          let flag := arrayInfo.2
          let nm := arrayInfo.2.dropWhile (fun c => c == '-')
          let d :=
            if description0 = [] then
              "Enable ".data ++ flag ++ " flag".data
            else description0
          (nm, flag, d)
        else (arrayInfo.2, [], description0)
      some (Token.field
        ⟨⟨flagInfo.1⟩, ⟨flagInfo.2.2⟩, required, arrayInfo.1, ⟨flagInfo.2.1⟩⟩)

/-- parseField of parse.ts: determine the delimiter form of one delimited
span, delimiters included, strip them, and parse the content; not a field
when no delimiter form matches. -/
def parseField (field : List Char) : Option Token :=
  if beginsWith [lbraceChar, lbraceChar] field &&
      finishesWith [rbraceChar, rbraceChar] field then
    parseFieldContent ((field.drop 2).dropLast.dropLast) true
  else if beginsWith [lbraceChar] field && finishesWith [rbraceChar] field then
    parseFieldContent ((field.drop 1).dropLast) true
  else if beginsWith ['['] field && finishesWith [']'] field then
    parseFieldContent ((field.drop 1).dropLast) false
  else none

/-- One step of the candidate-selection loop of findNextTemplate: keep the
candidate with the strictly smaller start offset. -/
def updBest (acc : Option (Nat × List Char × Nat)) (idx : Option Nat)
    (marker : List Char) (len : Nat) : Option (Nat × List Char × Nat) :=
  match idx, acc with
  | some i, none => some (i, marker, len)
  | some i, some best => if i < best.1 then some (i, marker, len) else some best
  | none, acc => acc

/-- The candidate-selection loop of findNextTemplate, unrolled over the
three candidates in source order: double brace, single brace, bracket. -/
def chooseCandidate (startDouble startSingle startOptional : Option Nat) :
    Option (Nat × List Char × Nat) :=
  updBest
    (updBest
      (updBest none startDouble [rbraceChar, rbraceChar] 2)
      startSingle [rbraceChar] 1)
    startOptional [']'] 1

/-- Candidate search of findNextTemplate on the remaining suffix: the three
independent searches, the double-brace preference, and the selection loop. -/
def selectCandidate (remaining : List Char) : Option (Nat × List Char × Nat) :=
  let startDouble := idxOf [lbraceChar, lbraceChar] remaining
  let startSingle0 := idxOf [lbraceChar] remaining
  let startOptional := idxOf ['['] remaining
  let startSingle :=
    if startSingle0.isSome && startDouble.isSome && startSingle0 == startDouble
    then none else startSingle0
  chooseCandidate startDouble startSingle startOptional

/-- findNextTemplate of parse.ts: locate the next template span at or after
startPos, or return none when there is no candidate or the found opening
marker has no matching closer. -/
def findNextTemplate (word : List Char) (startPos : Nat) : Option TemplateMatch :=
  let remaining := word.drop startPos
  match selectCandidate remaining with
  | none => none
  | some (nextStart, endMarker, markerLength) =>
    match idxOf endMarker (remaining.drop nextStart) with
    | none => none
    | some endIndex =>
      some ⟨startPos + nextStart, startPos + nextStart + endIndex + markerLength⟩

/-- The scanning loop of tokenizeShellWord, with an explicit fuel argument
standing for the loop bound; each iteration advances the position past a
found template, so word.length + 1 units of fuel always suffice. -/
def tokenizeLoopFuel : Nat → List Char → Nat → List Token
  | 0, _, _ => []
  | fuel + 1, word, pos =>
    if pos < word.length then
      match findNextTemplate word pos with
      | none => [Token.text ⟨word.drop pos⟩]
      | some m =>
        let pre : List Token :=
          if pos < m.start then [Token.text ⟨(word.drop pos).take (m.start - pos)⟩]
          else []
        let templateText := (word.drop m.start).take (m.stop - m.start)
        let tok :=
          match parseField templateText with
          | some t => t
          | none => Token.text ⟨templateText⟩
        pre ++ tok :: tokenizeLoopFuel fuel word m.stop
    else []

/-- tokenizeShellWord of parse.ts: tokenize one raw argument string,
falling back to a single text token so the result is never empty. -/
def tokenizeShellWord (word : String) : List Token :=
  let tokens := tokenizeLoopFuel (word.data.length + 1) word.data 0
  if tokens.length = 0 then [Token.text word] else tokens

/-- fromArgs of parse.ts: build a Blueprint from the argument vector, or
fail when it is empty or its first element is blank. -/
def fromArgs (args : List String) : Except String Blueprint :=
  match args with
  | [] => Except.error "cannot create blueprint: no command provided"
  | first :: _ =>
    if trimChars first.data = [] then
      Except.error "cannot create blueprint: empty command provided"
    else
      Except.ok ⟨first, args.map tokenizeShellWord⟩

/-- A property descriptor of the derived parameter schema
(src/blueprint/schema.ts); items is the declared element type of an array
property, none elsewhere, and an absent description is none. -/
structure SchemaProperty where
  type : String
  description : Option String
  items : Option String
  deriving DecidableEq, Repr

/-- The derived parameter schema: property map as an insertion-ordered
association list plus the required-name list. -/
structure Schema where
  type : String
  properties : List (String × SchemaProperty)
  required : List String
  deriving DecidableEq, Repr

/-- A parameter value supplied by the caller: string, boolean, or list of
strings, the three shapes admitted by the schema the protocol layer
enforces with zod before rendering is reached. -/
inductive Value where
  | str (s : String)
  | bool (b : Bool)
  | arr (xs : List String)
  deriving DecidableEq, Repr

/-- The caller-supplied parameter object, as an association list. -/
abbrev Params := List (String × Value)

/-- Key lookup in the parameter object. -/
def getParam (params : Params) (key : String) : Option Value :=
  match params.find? (fun kv => kv.1 == key) with
  | some kv => some kv.2
  | none => none

/-- normalizeFieldName of the render module: dashes become underscores. -/
def normalizeFieldName (name : String) : String :=
  ⟨name.data.map (fun c => if c == '-' then '_' else c)⟩

/-- The reverse renaming used by findParamValue: underscores become dashes. -/
def underscoresToDashes (name : String) : String :=
  ⟨name.data.map (fun c => if c == '_' then '-' else c)⟩

/-- findParamValue of the render module: exact key first, then the
dashes-to-underscores form, then, only when the field name contains an
underscore, the underscores-to-dashes form. -/
def findParamValue (params : Params) (fieldName : String) : Option Value :=
  match getParam params fieldName with
  | some v => some v
  | none =>
    match getParam params (normalizeFieldName fieldName) with
    | some v => some v
    | none =>
      if fieldName.data.contains '_' then
        getParam params (underscoresToDashes fieldName)
      else none

/-- hasValue of the render module: the meaningful-value test. -/
def hasValue : Value → Bool
  | Value.str s => !(s == "")
  | Value.bool b => b
  | Value.arr xs => !(xs.length == 0)

/-- valueToString of the render module; an array stringifies by joining
its elements with commas, as the generic JavaScript conversion does. -/
def valueToString : Value → String
  | Value.str s => s
  | Value.bool b => if b then "true" else "false"
  | Value.arr xs => String.intercalate "," xs

/-- The JavaScript typeof tag of a value, used in the array error text. -/
def typeofValue : Value → String
  | Value.str _ => "string"
  | Value.bool _ => "boolean"
  | Value.arr _ => "object"

/-- Whether a value is a list, modelling Array.isArray. -/
def isArrValue : Value → Bool
  | Value.arr _ => true
  | _ => false

/-- Property lookup in the schema property map. -/
def lookupProp (props : List (String × SchemaProperty)) (name : String) :
    Option SchemaProperty :=
  match props.find? (fun kv => kv.1 == name) with
  | some kv => some kv.2
  | none => none

/-- In-place description backfill on the recorded property of a name. -/
def updateDescription (props : List (String × SchemaProperty)) (name desc : String) :
    List (String × SchemaProperty) :=
  props.map (fun kv => if kv.1 == name then (kv.1, { kv.2 with description := some desc }) else kv)

/-- Whether a recorded description is falsy: absent or the empty string. -/
def descFalsy : Option String → Bool
  | none => true
  | some s => s == ""

/-- One token step of generateInputSchema of schema.ts: merge a duplicate
field name or record a new boolean, array or string property. -/
def schemaStep (acc : List (String × SchemaProperty) × List String) (t : Token) :
    List (String × SchemaProperty) × List String :=
  match t with
  | Token.text _ => acc
  | Token.field f =>
    let normalizedName := normalizeFieldName f.name
    match lookupProp acc.1 normalizedName with
    | some existingProp =>
      let props :=
        if !(f.description == "") && descFalsy existingProp.description then
          updateDescription acc.1 normalizedName f.description
        else acc.1
      let req :=
        if f.required && !(acc.2.contains normalizedName) then
          acc.2 ++ [normalizedName]
        else acc.2
      (props, req)
    | none =>
      if !(f.originalFlag == "") then
        let d :=
          if f.description == "" then "Enable " ++ f.originalFlag ++ " flag"
          else f.description
        (acc.1 ++ [(normalizedName, ⟨"boolean", some d, none⟩)], acc.2)
      else if f.isArray then
        let d :=
          if f.description == "" then "Additional command line arguments"
          else f.description
        let req :=
          if f.required && !(acc.2.contains normalizedName) then
            acc.2 ++ [normalizedName]
          else acc.2
        (acc.1 ++ [(normalizedName, ⟨"array", some d, some "string"⟩)], req)
      else
        let descOpt := if f.description == "" then none else some f.description
        let req :=
          if f.required && !(acc.2.contains normalizedName) then
            acc.2 ++ [normalizedName]
          else acc.2
        (acc.1 ++ [(normalizedName, ⟨"string", descOpt, none⟩)], req)

/-- generateInputSchema of schema.ts: walk every word and token in order,
accumulating properties and the required list. -/
def generateInputSchema (bp : Blueprint) : Schema :=
  let acc := bp.shellWords.foldl (fun acc word => word.foldl schemaStep acc) ([], [])
  ⟨"object", acc.1, acc.2⟩

/-- Whether the schema records the given name with the given type, the
optional-chain test inputSchema.properties[name].type of the render module. -/
def propTypeIs (schema : Schema) (name ty : String) : Bool :=
  match lookupProp schema.properties name with
  | some p => p.type == ty
  | none => false

/-- renderSingleOptionalField of the render module. -/
def renderSingleOptionalField (bp : Blueprint) (f : FieldData) (params : Params) :
    Bool × List String :=
  match findParamValue params f.name with
  | none => (false, [])
  | some value =>
    let inputSchema := generateInputSchema bp
    let normalizedName := normalizeFieldName f.name
    if propTypeIs inputSchema normalizedName "boolean" then
      match value with
      | Value.bool b =>
        if b then
          if !(f.originalFlag == "") then (true, [f.originalFlag])
          else (true, ["-" ++ f.name])
        else (false, [])
      | _ => (false, [])
    else
      let strValue := valueToString value
      if !(strValue == "") then (true, [strValue]) else (false, [])

/-- renderArrayField of the render module; elements are already strings, so
the element-wise string conversion is the identity here. -/
def renderArrayField (f : FieldData) (params : Params) : Bool × List String :=
  match findParamValue params f.name with
  | none => (false, [])
  | some value =>
    match value with
    | Value.arr xs => (!(xs.length == 0), xs)
    | _ => (false, [])

/-- One token step of the first pass of renderShellWord; the pair is
(hasRequiredContent, allOptionalFieldsEmpty). -/
def inclusionStep (params : Params) (acc : Bool × Bool) (t : Token) : Bool × Bool :=
  match t with
  | Token.text _ => (true, acc.2)
  | Token.field f =>
    match findParamValue params f.name with
    | some v =>
      if f.required then (true, false)
      else if hasValue v then (acc.1, false)
      else acc
    | none => if f.required then (true, acc.2) else acc

/-- The first pass of renderShellWord over the tokens of a word. -/
def inclusionFlags (params : Params) (tokens : List Token) : Bool × Bool :=
  tokens.foldl (inclusionStep params) (false, true)

/-- One token step of the concatenation section of renderShellWord: a text
token contributes its value, a field token its resolved string form when
that is non-empty. -/
def concatStep (params : Params) (parts : List String) (t : Token) : List String :=
  match t with
  | Token.text v => parts ++ [v]
  | Token.field f =>
    match findParamValue params f.name with
    | some value =>
      let strValue := valueToString value
      if !(strValue == "") then parts ++ [strValue] else parts
    | none => parts

/-- The parts accumulated by the concatenation section of renderShellWord. -/
def concatParts (params : Params) (tokens : List Token) : List String :=
  tokens.foldl (concatStep params) []

/-- renderShellWord of the render module: inclusion pre-check, the
single-field special cases, then the concatenation path. -/
def renderShellWord (bp : Blueprint) (tokens : List Token) (params : Params) :
    Bool × List String :=
  let flags := inclusionFlags params tokens
  if !flags.1 && flags.2 then (false, [])
  else
    let viaSingleField : Option (Bool × List String) :=
      match tokens with
      | [Token.field f] =>
        if propTypeIs (generateInputSchema bp) (normalizeFieldName f.name) "array" then
          some (renderArrayField f params)
        else if !f.required then
          some (renderSingleOptionalField bp f params)
        else none
      | _ => none
    match viaSingleField with
    | some r => r
    | none =>
      let parts := concatParts params tokens
      if 0 < parts.length then (true, [String.join parts]) else (false, [])

/-- The required-parameter validation loop of buildCommandArgs: the first
required name with no resolvable value, if any. -/
def checkRequired (params : Params) : List String → Option String
  | [] => none
  | name :: rest =>
    if (findParamValue params name).isSome then checkRequired params rest
    else some name

/-- The parameter-type validation loop of buildCommandArgs: the first
supplied entry whose normalized name is array-typed in the schema while the
value is not a list, if any. -/
def checkArrayParams (schema : Schema) : Params → Option (String × Value)
  | [] => none
  | (name, value) :: rest =>
    if propTypeIs schema (normalizeFieldName name) "array" && !(isArrValue value) then
      some (name, value)
    else checkArrayParams schema rest

/-- buildCommandArgs of the render module: validate, then render every
shell word in order, appending the included words' output arguments. -/
def buildCommandArgs (bp : Blueprint) (params : Params) :
    Except String (List String) :=
  let inputSchema := generateInputSchema bp
  match checkRequired params inputSchema.required with
  | some name => Except.error ("missing required parameter: " ++ name)
  | none =>
    match checkArrayParams inputSchema params with
    | some (name, value) =>
      Except.error
        ("parameter \x27" ++ name ++ "\x27 must be an array, got " ++ typeofValue value)
    | none =>
      Except.ok (bp.shellWords.foldl (fun result word =>
        let r := renderShellWord bp word params
        if r.1 then result ++ r.2 else result) [])

/-- The output arguments one word contributes to the rendered argv. -/
def wordContribution (bp : Blueprint) (params : Params) (tokens : List Token) :
    List String :=
  let r := renderShellWord bp tokens params
  if r.1 then r.2 else []

theorem data_append (a b : String) : (a ++ b).data = a.data ++ b.data := rfl

theorem string_eq_of_data {a b : String} (h : a.data = b.data) : a = b :=
  congrArg String.mk h

theorem string_append_right_inj {a b c : String} (h : a ++ b = a ++ c) : b = c := by
  apply string_eq_of_data
  have hd := congrArg String.data h
  rw [data_append, data_append] at hd
  exact List.append_cancel_left hd

theorem arrayMsg_ne_missingMsg (k t n : String) :
    ("parameter \x27" ++ k ++ "\x27 must be an array, got " ++ t) ≠
      ("missing required parameter: " ++ n) := by
  intro h
  have hd := congrArg String.data h
  rw [data_append, data_append, data_append, data_append] at hd
  have e1 : ("parameter \x27").data = 'p' :: "arameter \x27".data := rfl
  have e2 : ("missing required parameter: ").data = 'm' :: "issing required parameter: ".data := rfl
  rw [e1, e2] at hd
  simp at hd

theorem normalizeFieldName_idem (s : String) :
    normalizeFieldName (normalizeFieldName s) = normalizeFieldName s := by
  unfold normalizeFieldName
  apply string_eq_of_data
  show (s.data.map _).map _ = s.data.map _
  simp only [List.map_map]
  apply List.map_congr_left
  intro c _
  by_cases hc : c = '-' <;> simp [hc, Function.comp]

theorem normalizeFieldName_dashed (s : String) :
    normalizeFieldName (underscoresToDashes s) = normalizeFieldName s := by
  unfold normalizeFieldName underscoresToDashes
  apply string_eq_of_data
  show (s.data.map _).map _ = s.data.map _
  simp only [List.map_map]
  apply List.map_congr_left
  intro c _
  by_cases hc : c = '_'
  · simp [hc, Function.comp]
  · by_cases hc2 : c = '-' <;> simp [hc, hc2, Function.comp]

theorem underscoresToDashes_eq_self {s : String} (h : s.data.contains '_' = false) :
    underscoresToDashes s = s := by
  have hmem : '_' ∉ s.data := by
    simp [List.contains] at h
    exact h
  apply string_eq_of_data
  show s.data.map (fun c => if c == '_' then '-' else c) = s.data
  calc s.data.map (fun c => if c == '_' then '-' else c)
      = s.data.map id := by
        apply List.map_congr_left
        intro c hc
        have : c ≠ '_' := fun he => hmem (he ▸ hc)
        simp [this]
    _ = s.data := List.map_id s.data

theorem findParamValue_eq_none_iff (params : Params) (name : String) :
    findParamValue params name = none ↔
      getParam params name = none ∧
      getParam params (normalizeFieldName name) = none ∧
      getParam params (underscoresToDashes name) = none := by
  unfold findParamValue
  cases h1 : getParam params name with
  | some v => simp [h1]
  | none =>
    cases h2 : getParam params (normalizeFieldName name) with
    | some v => simp [h1, h2]
    | none =>
      cases hc : name.data.contains '_' with
      | true => simp [h1, h2, hc]
      | false =>
        rw [underscoresToDashes_eq_self hc]
        simp [h1, h2, hc]

theorem checkRequired_eq_none_iff (params : Params) (l : List String) :
    checkRequired params l = none ↔
      ∀ n ∈ l, (findParamValue params n).isSome = true := by
  induction l with
  | nil => simp [checkRequired]
  | cons n rest ih =>
    unfold checkRequired
    by_cases h : (findParamValue params n).isSome
    · simp [h, ih]
    · simp [h]

theorem checkRequired_some_spec {params : Params} {l : List String} {n : String}
    (h : checkRequired params l = some n) :
    n ∈ l ∧ findParamValue params n = none := by
  induction l with
  | nil => simp [checkRequired] at h
  | cons m rest ih =>
    unfold checkRequired at h
    by_cases hm : (findParamValue params m).isSome
    · simp [hm] at h
      rcases ih h with ⟨h1, h2⟩
      exact ⟨List.mem_cons_of_mem _ h1, h2⟩
    · simp [hm] at h
      subst h
      refine ⟨List.mem_cons_self _ _, ?_⟩
      exact Option.not_isSome_iff_eq_none.mp hm

theorem checkArrayParams_cons (schema : Schema) (kv : String × Value)
    (rest : Params) :
    checkArrayParams schema (kv :: rest) =
      if propTypeIs schema (normalizeFieldName kv.1) "array" && !(isArrValue kv.2)
      then some kv else checkArrayParams schema rest := by
  cases kv
  rfl

theorem checkArrayParams_eq_none_iff (schema : Schema) (params : Params) :
    checkArrayParams schema params = none ↔
      ∀ kv ∈ params,
        propTypeIs schema (normalizeFieldName kv.1) "array" = true →
        isArrValue kv.2 = true := by
  induction params with
  | nil => simp [checkArrayParams]
  | cons kv rest ih =>
    rw [checkArrayParams_cons]
    cases hb : (propTypeIs schema (normalizeFieldName kv.1) "array" && !(isArrValue kv.2)) with
    | true =>
      simp only [hb, if_true]
      simp at hb
      simp [hb.1, hb.2]
    | false =>
      simp only [hb, Bool.false_eq_true, if_false]
      simp at hb
      rw [ih]
      constructor
      · intro hall kv2 hkv2 hty
        rcases List.mem_cons.mp hkv2 with he | hmem
        · subst he
          exact hb hty
        · exact hall kv2 hmem hty
      · intro hall kv2 hkv2 hty
        exact hall kv2 (List.mem_cons_of_mem _ hkv2) hty

theorem checkArrayParams_some_spec {schema : Schema} {params : Params}
    {kv : String × Value} (h : checkArrayParams schema params = some kv) :
    kv ∈ params ∧ propTypeIs schema (normalizeFieldName kv.1) "array" = true ∧
      isArrValue kv.2 = false := by
  induction params with
  | nil => simp [checkArrayParams] at h
  | cons kv0 rest ih =>
    rw [checkArrayParams_cons] at h
    cases hb : (propTypeIs schema (normalizeFieldName kv0.1) "array" && !(isArrValue kv0.2)) with
    | true =>
      rw [hb, if_pos rfl] at h
      cases h
      simp at hb
      exact ⟨List.mem_cons_self _ _, hb.1, by simp [hb.2]⟩
    | false =>
      rw [hb] at h
      simp only [Bool.false_eq_true, if_false] at h
      rcases ih h with ⟨h1, h2, h3⟩
      exact ⟨List.mem_cons_of_mem _ h1, h2, h3⟩

theorem buildCommandArgs_of_missing {bp : Blueprint} {params : Params} {n : String}
    (h : checkRequired params (generateInputSchema bp).required = some n) :
    buildCommandArgs bp params = Except.error ("missing required parameter: " ++ n) := by
  unfold buildCommandArgs
  simp [h]

theorem buildCommandArgs_error_cases {bp : Blueprint} {params : Params} {msg : String}
    (h : buildCommandArgs bp params = Except.error msg) :
    (∃ n, checkRequired params (generateInputSchema bp).required = some n ∧
        msg = "missing required parameter: " ++ n) ∨
    (checkRequired params (generateInputSchema bp).required = none ∧
      ∃ kv, checkArrayParams (generateInputSchema bp) params = some kv ∧
        msg = "parameter \x27" ++ kv.1 ++ "\x27 must be an array, got " ++ typeofValue kv.2) := by
  unfold buildCommandArgs at h
  cases hcr : checkRequired params (generateInputSchema bp).required with
  | some n =>
    simp only [hcr] at h
    simp at h
    exact Or.inl ⟨n, rfl, h.symm⟩
  | none =>
    simp only [hcr] at h
    cases hca : checkArrayParams (generateInputSchema bp) params with
    | some kv =>
      simp only [hca] at h
      cases kv with
      | mk k v =>
        simp at h
        exact Or.inr ⟨rfl, ⟨(k, v), rfl, h.symm⟩⟩
    | none =>
      simp only [hca] at h
      simp at h

theorem buildCommandArgs_ok_eq {bp : Blueprint} {params : Params}
    (h1 : checkRequired params (generateInputSchema bp).required = none)
    (h2 : checkArrayParams (generateInputSchema bp) params = none) :
    buildCommandArgs bp params =
      Except.ok (bp.shellWords.foldl (fun result word =>
        let r := renderShellWord bp word params
        if r.1 then result ++ r.2 else result) []) := by
  unfold buildCommandArgs
  simp only [h1, h2]

/-- C1: rendering through buildCommandArgs fails with an error of the form
"missing required parameter: name" exactly when some name in the schema
required list has no value in the parameter map under the exact name, its
dashes-to-underscores form, or its underscores-to-dashes form; in
particular, the blueprint of echo with one required message placeholder,
rendered with the empty map, fails naming message. -/
theorem c1_missing_required_iff :
    (∀ (bp : Blueprint) (params : Params),
      (∃ name, buildCommandArgs bp params =
          Except.error ("missing required parameter: " ++ name)) ↔
      (∃ name, name ∈ (generateInputSchema bp).required ∧
        getParam params name = none ∧
        getParam params (normalizeFieldName name) = none ∧
        getParam params (underscoresToDashes name) = none)) ∧
    (∀ bp, fromArgs ["echo", "\x7bmessage\x7d"] = Except.ok bp →
      buildCommandArgs bp [] = Except.error ("missing required parameter: message")) := by
  constructor
  · intro bp params
    constructor
    · rintro ⟨name, herr⟩
      rcases buildCommandArgs_error_cases herr with
        ⟨n, hcr, hmsg⟩ | ⟨-, kv, -, hmsg⟩
      · have hname : name = n := string_append_right_inj hmsg
        subst hname
        rcases checkRequired_some_spec hcr with ⟨hmem, hnone⟩
        rcases (findParamValue_eq_none_iff params name).mp hnone with ⟨g1, g2, g3⟩
        exact ⟨name, hmem, g1, g2, g3⟩
      · exact absurd hmsg.symm (arrayMsg_ne_missingMsg kv.1 (typeofValue kv.2) name)
    · rintro ⟨name, hmem, g1, g2, g3⟩
      have hnone : findParamValue params name = none :=
        (findParamValue_eq_none_iff params name).mpr ⟨g1, g2, g3⟩
      cases hcr : checkRequired params (generateInputSchema bp).required with
      | none =>
        have := (checkRequired_eq_none_iff params _).mp hcr name hmem
        rw [hnone] at this
        simp at this
      | some n =>
        exact ⟨n, buildCommandArgs_of_missing hcr⟩
  · intro bp h
    injection h with h
    subst h
    rfl

/-- Witness for C1 at a concrete input: the echo blueprint with one
required message placeholder rendered with the empty map. -/
theorem c1_witness :
    buildCommandArgs
      ⟨"echo", [[Token.text "echo"], [Token.field ⟨"message", "", true, false, ""⟩]]⟩ [] =
      Except.error ("missing required parameter: message") :=
  c1_missing_required_iff.2
    ⟨"echo", [[Token.text "echo"], [Token.field ⟨"message", "", true, false, ""⟩]]⟩ rfl

theorem inclusionStep_unmet {params : Params} {t : Token}
    (h : ∃ f, t = Token.field f ∧ f.required = false ∧
        ∀ v, findParamValue params f.name = some v → hasValue v = false) :
    inclusionStep params (false, true) t = (false, true) := by
  rcases h with ⟨f, he, hreq, hval⟩
  subst he
  unfold inclusionStep
  cases hfv : findParamValue params f.name with
  | none => simp [hreq, hfv]
  | some v => simp [hreq, hfv, hval v hfv]

theorem inclusionFlags_all_unmet (params : Params) (tokens : List Token)
    (h : ∀ t ∈ tokens, ∃ f, t = Token.field f ∧ f.required = false ∧
        ∀ v, findParamValue params f.name = some v → hasValue v = false) :
    inclusionFlags params tokens = (false, true) := by
  induction tokens with
  | nil => rfl
  | cons t rest ih =>
    have step : inclusionStep params (false, true) t = (false, true) :=
      inclusionStep_unmet (h t (List.mem_cons_self _ _))
    show List.foldl (inclusionStep params) (inclusionStep params (false, true) t) rest = _
    rw [step]
    exact ih (fun t2 ht2 => h t2 (List.mem_cons_of_mem _ ht2))

theorem inclusionStep_fst_mono (params : Params) (acc : Bool × Bool) (t : Token)
    (h : acc.1 = true) : (inclusionStep params acc t).1 = true := by
  unfold inclusionStep
  cases t with
  | text s => rfl
  | field f =>
    cases hfv : findParamValue params f.name with
    | none => cases hr : f.required <;> simp [hr, hfv, h]
    | some v =>
      cases hr : f.required
      · cases hv : hasValue v <;> simp [hr, hfv, hv, h]
      · simp [hr, hfv]

theorem foldl_inclusion_fst_mono (params : Params) (l : List Token) (acc : Bool × Bool)
    (h : acc.1 = true) : (l.foldl (inclusionStep params) acc).1 = true := by
  induction l generalizing acc with
  | nil => exact h
  | cons t rest ih => exact ih _ (inclusionStep_fst_mono params acc t h)

theorem inclusionStep_fst_of_content (params : Params) (acc : Bool × Bool) {t : Token}
    (h : (∃ s, t = Token.text s) ∨ ∃ f, t = Token.field f ∧ f.required = true) :
    (inclusionStep params acc t).1 = true := by
  unfold inclusionStep
  rcases h with ⟨s, he⟩ | ⟨f, he, hreq⟩
  · subst he; rfl
  · subst he
    cases hfv : findParamValue params f.name with
    | none => simp [hreq, hfv]
    | some v => simp [hreq, hfv]

/-- C2: a word whose tokens are all optional fields with no meaningful
supplied value renders to zero output arguments, while any word holding a
text token or a required field passes the inclusion pre-check; concretely,
echo hello [name] renders to [echo, hello] with the empty map and to
[echo, hello, world] when name is world. -/
theorem c2_optional_word_exclusion :
    (∀ (bp : Blueprint) (params : Params) (tokens : List Token),
      (∀ t ∈ tokens, ∃ f, t = Token.field f ∧ f.required = false ∧
          ∀ v, findParamValue params f.name = some v → hasValue v = false) →
      renderShellWord bp tokens params = (false, [])) ∧
    (∀ (params : Params) (tokens : List Token) (t : Token), t ∈ tokens →
      ((∃ s, t = Token.text s) ∨ ∃ f, t = Token.field f ∧ f.required = true) →
      (inclusionFlags params tokens).1 = true) ∧
    (∀ bp, fromArgs ["echo", "hello", "[name]"] = Except.ok bp →
      buildCommandArgs bp [] = Except.ok ["echo", "hello"] ∧
      buildCommandArgs bp [("name", Value.str "world")] =
        Except.ok ["echo", "hello", "world"]) := by
  refine ⟨?_, ?_, ?_⟩
  · intro bp params tokens h
    unfold renderShellWord
    rw [inclusionFlags_all_unmet params tokens h]
    rfl
  · intro params tokens t hmem hcontent
    rcases List.append_of_mem hmem with ⟨l1, l2, he⟩
    subst he
    unfold inclusionFlags
    rw [List.foldl_append]
    show (List.foldl (inclusionStep params)
      (inclusionStep params (List.foldl (inclusionStep params) (false, true) l1) t) l2).1 = true
    exact foldl_inclusion_fst_mono params l2 _
      (inclusionStep_fst_of_content params _ hcontent)
  · intro bp h
    injection h with h
    subst h
    exact ⟨rfl, rfl⟩

/-- Witness for C2 at a concrete input: the lone optional name field with
the empty parameter map renders to nothing. -/
theorem c2_witness :
    renderShellWord
      ⟨"echo", [[Token.text "echo"], [Token.text "hello"],
        [Token.field ⟨"name", "", false, false, ""⟩]]⟩
      [Token.field ⟨"name", "", false, false, ""⟩] [] = (false, []) := by
  apply c2_optional_word_exclusion.1
  intro t ht
  simp at ht
  subst ht
  refine ⟨_, rfl, rfl, ?_⟩
  intro v hv
  simp [findParamValue, getParam] at hv

theorem renderShellWord_single_array (bp : Blueprint) (params : Params) (f : FieldData)
    (h : propTypeIs (generateInputSchema bp) (normalizeFieldName f.name) "array" = true) :
    renderShellWord bp [Token.field f] params =
      match findParamValue params f.name with
      | some (Value.arr xs) => (!(xs.length == 0), xs)
      | _ => (false, []) := by
  unfold renderShellWord inclusionFlags
  cases hfv : findParamValue params f.name with
  | none =>
    cases hr : f.required <;>
      simp [inclusionStep, hfv, hr, h, renderArrayField]
  | some v =>
    cases hr : f.required
    · cases hv : hasValue v
      · cases v with
        | str s => simp_all [inclusionStep, renderArrayField, hasValue]
        | bool b => simp_all [inclusionStep, renderArrayField, hasValue]
        | arr xs => simp_all [inclusionStep, renderArrayField, hasValue]
      · cases v <;> simp_all [inclusionStep, renderArrayField, hasValue]
    · cases v <;> simp [inclusionStep, hfv, hr, h, renderArrayField]

/-- C3: a word that is exactly one field token whose normalized name is
schema-typed array spreads the supplied list, one output argument per
element in order, and emits nothing when the value is absent or the empty
list; concretely, echo [files...] renders to [echo, a, b] for [a, b] and
to [echo] for the empty list. -/
theorem c3_array_word_spread :
    (∀ (bp : Blueprint) (params : Params) (f : FieldData),
      propTypeIs (generateInputSchema bp) (normalizeFieldName f.name) "array" = true →
      renderShellWord bp [Token.field f] params =
        match findParamValue params f.name with
        | some (Value.arr xs) => (!(xs.length == 0), xs)
        | _ => (false, [])) ∧
    (∀ bp, fromArgs ["echo", "[files...]"] = Except.ok bp →
      buildCommandArgs bp [("files", Value.arr ["a", "b"])] =
        Except.ok ["echo", "a", "b"] ∧
      buildCommandArgs bp [("files", Value.arr [])] = Except.ok ["echo"]) := by
  constructor
  · exact renderShellWord_single_array
  · intro bp h
    injection h with h
    subst h
    exact ⟨rfl, rfl⟩

/-- Witness for C3 at a concrete input: the lone optional files array field
with a two-element list spreads into two output arguments. -/
theorem c3_witness :
    renderShellWord
      ⟨"echo", [[Token.text "echo"], [Token.field ⟨"files", "", false, true, ""⟩]]⟩
      [Token.field ⟨"files", "", false, true, ""⟩]
      [("files", Value.arr ["a", "b"])] = (true, ["a", "b"]) :=
  c3_array_word_spread.1
    ⟨"echo", [[Token.text "echo"], [Token.field ⟨"files", "", false, true, ""⟩]]⟩
    [("files", Value.arr ["a", "b"])] ⟨"files", "", false, true, ""⟩ rfl

theorem propTypeIs_boolean_not_array {schema : Schema} {n : String}
    (h : propTypeIs schema n "boolean" = true) :
    propTypeIs schema n "array" = false := by
  unfold propTypeIs at h ⊢
  cases hl : lookupProp schema.properties n with
  | none => simp [hl] at h
  | some p =>
    rw [hl] at h
    have : p.type = "boolean" := by simpa using h
    simp [this]

/-- C4: a word that is exactly one optional field token whose schema
property is boolean emits the original flag spelling, or a dash plus the
name when no spelling was recorded, exactly when the supplied value is the
literal true, and emits nothing otherwise; concretely, ls [-f] renders to
[ls, -f] when f is true and to [ls] when f is false or absent. -/
theorem c4_boolean_flag :
    (∀ (bp : Blueprint) (params : Params) (f : FieldData),
      f.required = false →
      propTypeIs (generateInputSchema bp) (normalizeFieldName f.name) "boolean" = true →
      renderShellWord bp [Token.field f] params =
        (if findParamValue params f.name = some (Value.bool true)
         then (true, [if f.originalFlag == "" then "-" ++ f.name else f.originalFlag])
         else (false, []))) ∧
    (∀ bp, fromArgs ["ls", "[-f]"] = Except.ok bp →
      buildCommandArgs bp [("f", Value.bool true)] = Except.ok ["ls", "-f"] ∧
      buildCommandArgs bp [("f", Value.bool false)] = Except.ok ["ls"] ∧
      buildCommandArgs bp [] = Except.ok ["ls"]) := by
  constructor
  · intro bp params f hreq hbool
    have harr := propTypeIs_boolean_not_array hbool
    unfold renderShellWord inclusionFlags
    cases hfv : findParamValue params f.name with
    | none =>
      simp [inclusionStep, hfv, hreq]
    | some v =>
      cases v with
      | bool b =>
        cases b
        · simp [inclusionStep, hfv, hreq, hasValue, harr,
            renderSingleOptionalField, hbool]
        · simp [inclusionStep, hfv, hreq, hasValue, harr,
            renderSingleOptionalField, hbool]
          by_cases hof : f.originalFlag = "" <;> simp [hof]
      | str s =>
        cases hs : s == ""
        · simp [inclusionStep, hfv, hreq, hasValue, hs, harr,
            renderSingleOptionalField, hbool]
        · have : s = "" := by simpa using hs
          subst this
          simp [inclusionStep, hfv, hreq, hasValue, harr,
            renderSingleOptionalField, hbool]
      | arr xs =>
        cases hx : xs.length == 0
        · simp [inclusionStep, hfv, hreq, hasValue, hx, harr,
            renderSingleOptionalField, hbool]
        · have : xs = [] := by simpa using hx
          subst this
          simp [inclusionStep, hfv, hreq, hasValue, harr,
            renderSingleOptionalField, hbool]
  · intro bp h
    injection h with h
    subst h
    exact ⟨rfl, rfl, rfl⟩

/-- Witness for C4 at a concrete input: the lone optional boolean flag f
set to true emits its original spelling. -/
theorem c4_witness :
    renderShellWord
      ⟨"ls", [[Token.text "ls"], [Token.field ⟨"f", "Enable -f flag", false, false, "-f"⟩]]⟩
      [Token.field ⟨"f", "Enable -f flag", false, false, "-f"⟩]
      [("f", Value.bool true)] = (true, ["-f"]) :=
  c4_boolean_flag.1
    ⟨"ls", [[Token.text "ls"], [Token.field ⟨"f", "Enable -f flag", false, false, "-f"⟩]]⟩
    [("f", Value.bool true)] ⟨"f", "Enable -f flag", false, false, "-f"⟩ rfl rfl

/-- C5: parameter lookup resolves the first present key among, in order,
the exact field name, its dashes-to-underscores form, and, only when the
field name contains an underscore, its underscores-to-dashes form;
consequently echo with a required my-var field and an optional my-flag
boolean flag renders [echo, hello, --my-flag] from underscore-keyed
parameters. -/
theorem c5_lookup_order :
    (∀ (params : Params) (name : String),
      findParamValue params name =
        (([name, normalizeFieldName name] ++
            (if name.data.contains '_' then [underscoresToDashes name] else [])).filterMap
          (getParam params)).head?) ∧
    (∀ bp, fromArgs ["echo", "\x7bmy-var\x7d", "[--my-flag]"] = Except.ok bp →
      buildCommandArgs bp [("my_var", Value.str "hello"), ("my_flag", Value.bool true)] =
        Except.ok ["echo", "hello", "--my-flag"]) := by
  constructor
  · intro params name
    unfold findParamValue
    cases hc : name.data.contains '_' with
    | true =>
      cases h1 : getParam params name with
      | some v => simp [h1, hc]
      | none =>
        cases h2 : getParam params (normalizeFieldName name) with
        | some v => simp [h1, h2, hc]
        | none =>
          cases h3 : getParam params (underscoresToDashes name) <;>
            simp [h1, h2, h3, hc]
    | false =>
      cases h1 : getParam params name with
      | some v => simp [h1, hc]
      | none =>
        cases h2 : getParam params (normalizeFieldName name) with
        | some v => simp [h1, h2, hc]
        | none => simp [h1, h2, hc]
  · intro bp h
    injection h with h
    subst h
    rfl

/-- Witness for C5 at a concrete input: lookup of the name my-flag in a map
keyed my_flag resolves through the dashes-to-underscores form. -/
theorem c5_witness :
    findParamValue [("my_flag", Value.bool true)] "my-flag" =
      (((["my-flag", normalizeFieldName "my-flag"] ++
          (if ("my-flag").data.contains '_' then [underscoresToDashes "my-flag"] else [])).filterMap
        (getParam [("my_flag", Value.bool true)])).head?) :=
  c5_lookup_order.1 [("my_flag", Value.bool true)] "my-flag"

/-- C6: when the selected opening marker of a word has no matching closer,
the candidate search reports no template, the scanning loop keeps the whole
remainder of the word as one literal text token and stops, and tokenization
never fails: building a blueprint succeeds for every argument vector with a
non-blank first word, and echo with the malformed word of two open braces
renders that word verbatim. -/
theorem c6_malformed_is_literal :
    (∀ (word : List Char) (pos fuel : Nat),
      pos < word.length →
      findNextTemplate word pos = none →
      tokenizeLoopFuel (fuel + 1) word pos = [Token.text ⟨word.drop pos⟩]) ∧
    (∀ (word : List Char) (pos i len : Nat) (marker : List Char),
      selectCandidate (word.drop pos) = some (i, marker, len) →
      idxOf marker ((word.drop pos).drop i) = none →
      findNextTemplate word pos = none) ∧
    (∀ (first : String) (rest : List String),
      trimChars first.data ≠ [] →
      ∃ bp, fromArgs (first :: rest) = Except.ok bp) ∧
    (∀ bp, fromArgs ["echo", "\x7b\x7bincomplete"] = Except.ok bp →
      buildCommandArgs bp [] = Except.ok ["echo", "\x7b\x7bincomplete"]) := by
  refine ⟨?_, ?_, ?_, ?_⟩
  · intro word pos fuel hlt hnone
    unfold tokenizeLoopFuel
    simp [hlt, hnone]
  · intro word pos i len marker hsel hidx
    unfold findNextTemplate
    rw [List.drop_drop] at hidx
    simp [hsel, hidx]
  · intro first rest h
    unfold fromArgs
    simp [h]
  · intro bp h
    injection h with h
    subst h
    rfl

/-- Witness for C6 at a concrete input: the word of two open braces with no
closer renders verbatim through the whole pipeline. -/
theorem c6_witness :
    buildCommandArgs
      ⟨"echo", [[Token.text "echo"], [Token.text "\x7b\x7bincomplete"]]⟩ [] =
      Except.ok ["echo", "\x7b\x7bincomplete"] :=
  c6_malformed_is_literal.2.2.2
    ⟨"echo", [[Token.text "echo"], [Token.text "\x7b\x7bincomplete"]]⟩ rfl

theorem buildCommandArgs_of_array_mismatch {bp : Blueprint} {params : Params}
    {kv : String × Value}
    (h1 : checkRequired params (generateInputSchema bp).required = none)
    (h2 : checkArrayParams (generateInputSchema bp) params = some kv) :
    buildCommandArgs bp params =
      Except.error ("parameter \x27" ++ kv.1 ++ "\x27 must be an array, got " ++
        typeofValue kv.2) := by
  unfold buildCommandArgs
  cases kv
  simp [h1, h2]

/-- C7 counterexample: with a blueprint of a required msg field and an
optional files array, supplying only a non-list files value makes rendering
fail with the missing-required error for msg, not with the must-be-an-array
error, although a supplied parameter with an array-typed normalized key and
a non-list value exists; the claimed equivalence fails at this input. -/
theorem c7_counterexample :
    fromArgs ["echo", "\x7bmsg\x7d", "[files...]"] =
      Except.ok ⟨"echo", [[Token.text "echo"], [Token.field ⟨"msg", "", true, false, ""⟩],
        [Token.field ⟨"files", "", false, true, ""⟩]]⟩ ∧
    propTypeIs
      (generateInputSchema ⟨"echo", [[Token.text "echo"],
        [Token.field ⟨"msg", "", true, false, ""⟩],
        [Token.field ⟨"files", "", false, true, ""⟩]]⟩)
      (normalizeFieldName "files") "array" = true ∧
    isArrValue (Value.str "x") = false ∧
    buildCommandArgs
      ⟨"echo", [[Token.text "echo"], [Token.field ⟨"msg", "", true, false, ""⟩],
        [Token.field ⟨"files", "", false, true, ""⟩]]⟩
      [("files", Value.str "x")] =
      Except.error "missing required parameter: msg" ∧
    buildCommandArgs
      ⟨"echo", [[Token.text "echo"], [Token.field ⟨"msg", "", true, false, ""⟩],
        [Token.field ⟨"files", "", false, true, ""⟩]]⟩
      [("files", Value.str "x")] ≠
      Except.error "parameter \x27files\x27 must be an array, got string" := by
  refine ⟨rfl, rfl, rfl, rfl, ?_⟩
  intro h
  rw [show buildCommandArgs
      ⟨"echo", [[Token.text "echo"], [Token.field ⟨"msg", "", true, false, ""⟩],
        [Token.field ⟨"files", "", false, true, ""⟩]]⟩
      [("files", Value.str "x")] =
      Except.error "missing required parameter: msg" from rfl] at h
  injection h with h
  exact absurd h (by decide)

/-- C7 (amended): provided every name in the schema required list resolves
to a value, rendering fails with an error of the form "parameter 'name'
must be an array" exactly when some supplied parameter has an array-typed
normalized key and a non-list value; the check runs during validation, so
no argument list is produced; concretely, echo [files...] with a string
files value fails naming files. -/
theorem c7_array_type_check :
    (∀ (bp : Blueprint) (params : Params),
      (∀ n ∈ (generateInputSchema bp).required, (findParamValue params n).isSome = true) →
      ((∃ kv, kv ∈ params ∧
          propTypeIs (generateInputSchema bp) (normalizeFieldName kv.1) "array" = true ∧
          isArrValue kv.2 = false) ↔
        (∃ name t, buildCommandArgs bp params =
          Except.error ("parameter \x27" ++ name ++ "\x27 must be an array, got " ++ t)))) ∧
    (∀ bp, fromArgs ["echo", "[files...]"] = Except.ok bp →
      buildCommandArgs bp [("files", Value.str "not-an-array")] =
        Except.error ("parameter \x27files\x27 must be an array, got string")) := by
  constructor
  · intro bp params hreq
    have hcr : checkRequired params (generateInputSchema bp).required = none :=
      (checkRequired_eq_none_iff params _).mpr hreq
    constructor
    · rintro ⟨kv, hmem, hty, harr⟩
      cases hca : checkArrayParams (generateInputSchema bp) params with
      | none =>
        have := (checkArrayParams_eq_none_iff _ params).mp hca kv hmem hty
        rw [harr] at this
        cases this
      | some kv2 =>
        exact ⟨kv2.1, typeofValue kv2.2, buildCommandArgs_of_array_mismatch hcr hca⟩
    · rintro ⟨name, t, herr⟩
      rcases buildCommandArgs_error_cases herr with
        ⟨n, hcrs, -⟩ | ⟨-, kv, hca, -⟩
      · rw [hcr] at hcrs
        cases hcrs
      · rcases checkArrayParams_some_spec hca with ⟨h1, h2, h3⟩
        exact ⟨kv, h1, h2, h3⟩
  · intro bp h
    injection h with h
    subst h
    rfl

/-- Witness for C7 at a concrete input: echo [files...] with a string
files value fails with the must-be-an-array error naming files. -/
theorem c7_witness :
    buildCommandArgs
      ⟨"echo", [[Token.text "echo"], [Token.field ⟨"files", "", false, true, ""⟩]]⟩
      [("files", Value.str "not-an-array")] =
      Except.error ("parameter \x27files\x27 must be an array, got string") :=
  c7_array_type_check.2
    ⟨"echo", [[Token.text "echo"], [Token.field ⟨"files", "", false, true, ""⟩]]⟩ rfl

/-- C8 counterexample: for the blueprint of echo with a required files
array placeholder, rendering with the empty list supplied for files
succeeds and yields [echo], rather than failing; the schema does list
files as required, so presence alone satisfies the renderer. -/
theorem c8_counterexample :
    fromArgs ["echo", "\x7bfiles...\x7d"] =
      Except.ok ⟨"echo", [[Token.text "echo"], [Token.field ⟨"files", "", true, true, ""⟩]]⟩ ∧
    (generateInputSchema
      ⟨"echo", [[Token.text "echo"], [Token.field ⟨"files", "", true, true, ""⟩]]⟩).required =
      ["files"] ∧
    buildCommandArgs
      ⟨"echo", [[Token.text "echo"], [Token.field ⟨"files", "", true, true, ""⟩]]⟩
      [("files", Value.arr [])] = Except.ok ["echo"] :=
  ⟨rfl, rfl, rfl⟩

/-- C8 (amended): a required array placeholder requires only presence at
render time: whenever every required name resolves to a value and every
supplied parameter with an array-typed normalized key is a list, rendering
succeeds, and a word that is a single array-typed field token whose
resolved value is the empty list emits no output argument. -/
theorem c8_required_array_presence :
    (∀ (bp : Blueprint) (params : Params),
      (∀ n ∈ (generateInputSchema bp).required, (findParamValue params n).isSome = true) →
      (∀ kv ∈ params,
        propTypeIs (generateInputSchema bp) (normalizeFieldName kv.1) "array" = true →
        isArrValue kv.2 = true) →
      ∃ l, buildCommandArgs bp params = Except.ok l) ∧
    (∀ (bp : Blueprint) (params : Params) (f : FieldData),
      propTypeIs (generateInputSchema bp) (normalizeFieldName f.name) "array" = true →
      findParamValue params f.name = some (Value.arr []) →
      renderShellWord bp [Token.field f] params = (false, [])) := by
  constructor
  · intro bp params hreq harr
    have h1 : checkRequired params (generateInputSchema bp).required = none :=
      (checkRequired_eq_none_iff params _).mpr hreq
    have h2 : checkArrayParams (generateInputSchema bp) params = none :=
      (checkArrayParams_eq_none_iff _ params).mpr harr
    exact ⟨_, buildCommandArgs_ok_eq h1 h2⟩
  · intro bp params f hty hfv
    rw [renderShellWord_single_array bp params f hty, hfv]
    rfl

/-- Witness for C8 at a concrete input: the required files array blueprint
with files supplied as the empty list renders successfully. -/
theorem c8_witness :
    ∃ l, buildCommandArgs
      ⟨"echo", [[Token.text "echo"], [Token.field ⟨"files", "", true, true, ""⟩]]⟩
      [("files", Value.arr [])] = Except.ok l :=
  c8_required_array_presence.1
    ⟨"echo", [[Token.text "echo"], [Token.field ⟨"files", "", true, true, ""⟩]]⟩
    [("files", Value.arr [])] (by decide) (by decide)

theorem idxOf_beginsWith {p : List Char} : ∀ {l : List Char} {i : Nat},
    idxOf p l = some i → beginsWith p (l.drop i) = true := by
  intro l
  induction l with
  | nil =>
    intro i h
    unfold idxOf at h
    by_cases hb : beginsWith p [] = true
    · simp [hb] at h
      subst h
      simpa using hb
    · simp [hb] at h
  | cons c rest ih =>
    intro i h
    unfold idxOf at h
    by_cases hb : beginsWith p (c :: rest) = true
    · simp [hb] at h
      subst h
      simpa using hb
    · simp [hb] at h
      rcases h with ⟨j, hj, hji⟩
      subst hji
      simpa using ih hj

theorem beginsWith_ne_nil {p l : List Char} (h : beginsWith p l = true)
    (hp : p ≠ []) : l ≠ [] := by
  cases p with
  | nil => exact absurd rfl hp
  | cons x xs =>
    cases l with
    | nil => simp [beginsWith] at h
    | cons c cs => simp

theorem idxOf_lt_length {p l : List Char} {i : Nat} (h : idxOf p l = some i)
    (hp : p ≠ []) : i < l.length := by
  have h1 := idxOf_beginsWith h
  have h2 := beginsWith_ne_nil h1 hp
  by_contra hle
  push_neg at hle
  rw [List.drop_eq_nil_iff.mpr hle] at h2
  exact h2 rfl

theorem parseFieldContent_some_field {c : List Char} {req : Bool} {t : Token}
    (h : parseFieldContent c req = some t) : ∃ f, t = Token.field f := by
  simp only [parseFieldContent] at h
  split at h
  · cases h
  · injection h with h
    exact ⟨_, h.symm⟩

theorem parseField_some_field {l : List Char} {t : Token}
    (h : parseField l = some t) : ∃ f, t = Token.field f := by
  unfold parseField at h
  by_cases h1 : (beginsWith [lbraceChar, lbraceChar] l &&
      finishesWith [rbraceChar, rbraceChar] l) = true
  · rw [if_pos h1] at h
    exact parseFieldContent_some_field h
  · rw [if_neg h1] at h
    by_cases h2 : (beginsWith [lbraceChar] l && finishesWith [rbraceChar] l) = true
    · rw [if_pos h2] at h
      exact parseFieldContent_some_field h
    · rw [if_neg h2] at h
      by_cases h3 : (beginsWith ['['] l && finishesWith [']'] l) = true
      · rw [if_pos h3] at h
        exact parseFieldContent_some_field h
      · rw [if_neg h3] at h
        cases h

theorem updBest_spec {acc : Option (Nat × List Char × Nat)} {idx : Option Nat}
    {marker m2 : List Char} {len i len2 : Nat}
    (h : updBest acc idx marker len = some (i, m2, len2)) :
    (idx = some i ∧ m2 = marker ∧ len2 = len) ∨ acc = some (i, m2, len2) := by
  rcases idx with - | j
  · right
    rw [show updBest acc none marker len = acc from by cases acc <;> rfl] at h
    exact h
  · rcases acc with - | best
    · left
      rw [show updBest none (some j) marker len = some (j, marker, len) from rfl] at h
      injection h with h
      injection h with h1 h
      injection h with h2 h3
      exact ⟨by rw [h1], h2.symm, h3.symm⟩
    · rw [show updBest (some best) (some j) marker len =
          (if j < best.1 then some (j, marker, len) else some best) from rfl] at h
      by_cases hlt : j < best.1
      · rw [if_pos hlt] at h
        left
        injection h with h
        injection h with h1 h
        injection h with h2 h3
        exact ⟨by rw [h1], h2.symm, h3.symm⟩
      · rw [if_neg hlt] at h
        right
        exact h

theorem chooseCandidate_spec {d s o : Option Nat} {i len : Nat} {m : List Char}
    (h : chooseCandidate d s o = some (i, m, len)) :
    1 ≤ len ∧ (d = some i ∨ s = some i ∨ o = some i) := by
  unfold chooseCandidate at h
  rcases updBest_spec h with ⟨ho, hm, hl⟩ | h2
  · subst hl
    exact ⟨by omega, Or.inr (Or.inr ho)⟩
  · rcases updBest_spec h2 with ⟨hs, hm, hl⟩ | h3
    · subst hl
      exact ⟨by omega, Or.inr (Or.inl hs)⟩
    · rcases updBest_spec h3 with ⟨hd, hm, hl⟩ | h4
      · subst hl
        exact ⟨by omega, Or.inl hd⟩
      · cases h4

theorem selectCandidate_spec {rem : List Char} {i len : Nat} {m : List Char}
    (h : selectCandidate rem = some (i, m, len)) :
    1 ≤ len ∧ ∃ p, p ≠ ([] : List Char) ∧ idxOf p rem = some i := by
  simp only [selectCandidate] at h
  rcases chooseCandidate_spec h with ⟨hlen, hd | hs | ho⟩
  · exact ⟨hlen, [lbraceChar, lbraceChar], by simp, hd⟩
  · split at hs
    · cases hs
    · exact ⟨hlen, [lbraceChar], by simp, hs⟩
  · exact ⟨hlen, ['['], by simp, ho⟩

theorem findNextTemplate_bounds {word : List Char} {pos : Nat} {m : TemplateMatch}
    (h : findNextTemplate word pos = some m) :
    pos ≤ m.start ∧ m.start < word.length ∧ m.start < m.stop := by
  simp only [findNextTemplate] at h
  cases hsel : selectCandidate (word.drop pos) with
  | none => rw [hsel] at h; cases h
  | some c =>
    obtain ⟨i, mk, len⟩ := c
    rcases selectCandidate_spec hsel with ⟨hlen, p, hp, hidx⟩
    have hi : i < (word.drop pos).length := idxOf_lt_length hidx hp
    rw [List.length_drop] at hi
    cases hend : idxOf mk (List.drop i (word.drop pos)) with
    | none =>
      simp only [hsel, hend] at h
      cases h
    | some endIndex =>
      simp only [hsel, hend] at h
      injection h with h
      subst h
      refine ⟨?_, ?_, ?_⟩
      · show pos ≤ pos + i
        omega
      · show pos + i < word.length
        omega
      · show pos + i < pos + i + endIndex + len
        omega

theorem tokenizeLoopFuel_text_ne_nil :
    ∀ (fuel : Nat) (word : List Char) (pos : Nat),
      ∀ t ∈ tokenizeLoopFuel fuel word pos, ∀ s, t = Token.text s → s.data ≠ [] := by
  intro fuel
  induction fuel with
  | zero =>
    intro word pos t ht
    simp [tokenizeLoopFuel] at ht
  | succ fuel ih =>
    intro word pos t ht s hts hs
    rw [tokenizeLoopFuel] at ht
    by_cases hlt : pos < word.length
    · rw [if_pos hlt] at ht
      cases hfnt : findNextTemplate word pos with
      | none =>
        rw [hfnt] at ht
        simp at ht
        subst ht
        injection hts with hts
        rw [← hts] at hs
        have : word.length ≤ pos := List.drop_eq_nil_iff.mp hs
        omega
      | some m =>
        rw [hfnt] at ht
        rcases findNextTemplate_bounds hfnt with ⟨hb1, hb2, hb3⟩
        rcases List.mem_append.mp ht with hpre | hrest
        · by_cases hps : pos < m.start
          · rw [if_pos hps] at hpre
            simp at hpre
            subst hpre
            injection hts with hts
            rw [← hts] at hs
            rcases List.take_eq_nil_iff.mp hs with h0 | h0
            · omega
            · have : word.length ≤ pos := List.drop_eq_nil_iff.mp h0
              omega
          · rw [if_neg hps] at hpre
            simp at hpre
        · rcases List.mem_cons.mp hrest with htok | hrec
          · cases hpf : parseField ((word.drop m.start).take (m.stop - m.start)) with
            | some t2 =>
              rw [hpf] at htok
              rcases parseField_some_field hpf with ⟨f, hf⟩
              rw [htok, hf] at hts
              cases hts
            | none =>
              rw [hpf] at htok
              rw [htok] at hts
              injection hts with hts
              rw [← hts] at hs
              rcases List.take_eq_nil_iff.mp hs with h0 | h0
              · omega
              · have : word.length ≤ m.start := List.drop_eq_nil_iff.mp h0
                omega
          · exact ih word m.stop t hrec s hts hs
    · rw [if_neg hlt] at ht
      simp at ht

theorem tokenizeShellWord_text_ne_nil {word : String} (hw : word.data ≠ [])
    {t : Token} (ht : t ∈ tokenizeShellWord word) {s : String}
    (hts : t = Token.text s) : s.data ≠ [] := by
  unfold tokenizeShellWord at ht
  by_cases hz : (tokenizeLoopFuel (word.data.length + 1) word.data 0).length = 0
  · rw [if_pos hz] at ht
    simp at ht
    subst ht
    injection hts with hts
    subst hts
    exact hw
  · rw [if_neg hz] at ht
    exact tokenizeLoopFuel_text_ne_nil _ _ _ t ht s hts

theorem string_ne_empty_of_data_ne_nil {s : String} (h : s.data ≠ []) : s ≠ "" := by
  intro he
  subst he
  exact h rfl

theorem string_data_ne_nil_of_beq_false {s : String} (h : (s == "") = false) :
    s.data ≠ [] := by
  intro hd
  have : s = "" := string_eq_of_data hd
  subst this
  simp at h

theorem concatStep_ne_nil {params : Params} {parts : List String} {t : Token}
    (hacc : ∀ p ∈ parts, p.data ≠ [])
    (ht : ∀ s, t = Token.text s → s.data ≠ []) :
    ∀ p ∈ concatStep params parts t, p.data ≠ [] := by
  intro p hp
  unfold concatStep at hp
  cases t with
  | text v =>
    rcases List.mem_append.mp hp with h1 | h1
    · exact hacc p h1
    · simp at h1
      subst h1
      exact ht p rfl
  | field f =>
    cases hfv : findParamValue params f.name with
    | none =>
      simp only [concatStep, hfv] at hp
      exact hacc p hp
    | some value =>
      simp only [concatStep, hfv] at hp
      cases hbe : (valueToString value == "") with
      | true =>
        simp only [hbe, Bool.not_true, Bool.false_eq_true, if_false] at hp
        exact hacc p hp
      | false =>
        simp only [hbe, Bool.not_false, if_true] at hp
        rcases List.mem_append.mp hp with h1 | h1
        · exact hacc p h1
        · simp at h1
          subst h1
          exact string_data_ne_nil_of_beq_false hbe

theorem concatParts_ne_nil {params : Params} {tokens : List Token}
    (htext : ∀ t ∈ tokens, ∀ s, t = Token.text s → s.data ≠ []) :
    ∀ p ∈ concatParts params tokens, p.data ≠ [] := by
  unfold concatParts
  suffices haux : ∀ (l : List Token) (acc : List String),
      (∀ p ∈ acc, p.data ≠ []) →
      (∀ t ∈ l, ∀ s, t = Token.text s → s.data ≠ []) →
      ∀ p ∈ l.foldl (concatStep params) acc, p.data ≠ [] by
    exact haux tokens [] (by simp) htext
  intro l
  induction l with
  | nil =>
    intro acc hacc _ p hp
    exact hacc p hp
  | cons t rest ih =>
    intro acc hacc hl p hp
    exact ih (concatStep params acc t)
      (concatStep_ne_nil hacc (hl t (List.mem_cons_self _ _)))
      (fun t2 ht2 => hl t2 (List.mem_cons_of_mem _ ht2)) p hp

theorem foldl_string_append_ne_nil :
    ∀ (l : List String) (acc : String), acc.data ≠ [] →
      (List.foldl (fun r s => r ++ s) acc l).data ≠ [] := by
  intro l
  induction l with
  | nil => intro acc h; exact h
  | cons s rest ih =>
    intro acc h
    apply ih
    rw [data_append]
    intro hc
    rcases List.append_eq_nil.mp hc with ⟨h1, -⟩
    exact h h1

theorem string_join_ne_empty {parts : List String}
    (hne : ∀ p ∈ parts, p.data ≠ []) (hp : parts ≠ []) :
    String.join parts ≠ "" := by
  apply string_ne_empty_of_data_ne_nil
  cases parts with
  | nil => exact absurd rfl hp
  | cons p rest =>
    show (List.foldl (fun r s => r ++ s) ("" ++ p) rest).data ≠ []
    apply foldl_string_append_ne_nil
    rw [data_append]
    show [] ++ p.data ≠ []
    rw [List.nil_append]
    exact hne p (List.mem_cons_self _ _)

/-- C9 counterexample: the empty shell word is tokenized as a single empty
text token; its rendering runs the general concatenation path, the final
concatenation is the empty string, and yet one empty-string output argument
is emitted: echo with an empty second word renders to [echo, empty string]
rather than [echo]. -/
theorem c9_counterexample :
    fromArgs ["echo", ""] =
      Except.ok ⟨"echo", [[Token.text "echo"], [Token.text ""]]⟩ ∧
    concatParts [] [Token.text ""] = [""] ∧
    String.join (concatParts [] [Token.text ""]) = "" ∧
    renderShellWord ⟨"echo", [[Token.text "echo"], [Token.text ""]]⟩
      [Token.text ""] [] = (true, [""]) ∧
    buildCommandArgs ⟨"echo", [[Token.text "echo"], [Token.text ""]]⟩ [] =
      Except.ok ["echo", ""] :=
  ⟨rfl, rfl, rfl, rfl, rfl⟩

theorem renderShellWord_concat (bp : Blueprint) (params : Params) (tokens : List Token)
    (hflag : (!(inclusionFlags params tokens).1 && (inclusionFlags params tokens).2) = false)
    (hsingle : ∀ f, tokens = [Token.field f] →
      propTypeIs (generateInputSchema bp) (normalizeFieldName f.name) "array" = false ∧
      f.required = true) :
    renderShellWord bp tokens params =
      (if 0 < (concatParts params tokens).length
       then (true, [String.join (concatParts params tokens)]) else (false, [])) := by
  cases tokens with
  | nil =>
    simp only [renderShellWord, hflag, Bool.false_eq_true, if_false]
  | cons t rest =>
    cases rest with
    | nil =>
      cases t with
      | text v =>
        simp only [renderShellWord, hflag, Bool.false_eq_true, if_false]
      | field f =>
        rcases hsingle f rfl with ⟨ha, hr⟩
        simp only [renderShellWord, hflag, Bool.false_eq_true, if_false, ha, hr,
          Bool.not_true]
    | cons t2 rest2 =>
      cases t with
      | text v =>
        simp only [renderShellWord, hflag, Bool.false_eq_true, if_false]
      | field f =>
        simp only [renderShellWord, hflag, Bool.false_eq_true, if_false]

/-- C9 (amended): a word rendered through the general concatenation path
concatenates the token contributions in order and emits the result as one
argument exactly when at least one part was contributed; a field token
contributes only a non-empty string, so when every text token of the word
is non-empty — which tokenization guarantees for every non-empty word — an
empty final concatenation emits zero output arguments; the empty word is
tokenized as one empty text token and contributes one empty-string
argument. -/
theorem c9_concat_path :
    (∀ (bp : Blueprint) (params : Params) (tokens : List Token),
      ¬((inclusionFlags params tokens).1 = false ∧
        (inclusionFlags params tokens).2 = true) →
      (∀ f, tokens = [Token.field f] →
        propTypeIs (generateInputSchema bp) (normalizeFieldName f.name) "array" = false ∧
        f.required = true) →
      renderShellWord bp tokens params =
        (if concatParts params tokens = [] then (false, [])
         else (true, [String.join (concatParts params tokens)]))) ∧
    (∀ (params : Params) (tokens : List Token),
      (∀ t ∈ tokens, ∀ s, t = Token.text s → s.data ≠ []) →
      concatParts params tokens ≠ [] →
      String.join (concatParts params tokens) ≠ "") ∧
    (∀ (word : String), word.data ≠ [] →
      ∀ t ∈ tokenizeShellWord word, ∀ s, t = Token.text s → s.data ≠ []) := by
  refine ⟨?_, ?_, ?_⟩
  · intro bp params tokens hincl hsingle
    have hflag : (!(inclusionFlags params tokens).1 && (inclusionFlags params tokens).2) = false := by
      cases h1 : (inclusionFlags params tokens).1 <;>
        cases h2 : (inclusionFlags params tokens).2 <;> simp_all
    rw [renderShellWord_concat bp params tokens hflag hsingle]
    cases hp : concatParts params tokens with
    | nil => simp
    | cons p rest => simp
  · intro params tokens htext hne
    exact string_join_ne_empty (concatParts_ne_nil htext) hne
  · intro word hw t ht s hts
    exact tokenizeShellWord_text_ne_nil hw ht hts

/-- Witness for C9 at a concrete input: the word of the single literal
hello runs the concatenation path and emits one argument. -/
theorem c9_witness :
    renderShellWord ⟨"echo", [[Token.text "echo"], [Token.text "hello"]]⟩
      [Token.text "hello"] [] = (true, ["hello"]) := by
  have h := c9_concat_path.1 ⟨"echo", [[Token.text "echo"], [Token.text "hello"]]⟩
    [] [Token.text "hello"] (by decide)
    (by
      intro f hf
      injection hf with h1 h2
      cases h1)
  simpa using h

theorem foldl_preserve {α β : Type} (P : α → Prop) (f : α → β → α)
    (hstep : ∀ a b, P a → P (f a b)) :
    ∀ (l : List β) (a : α), P a → P (l.foldl f a) := by
  intro l
  induction l with
  | nil => intro a h; exact h
  | cons b rest ih => intro a h; exact ih (f a b) (hstep a b h)

theorem find?_append_left {α : Type} {p : α → Bool} {l1 : List α} (l2 : List α)
    {a : α} (h : l1.find? p = some a) : (l1 ++ l2).find? p = some a := by
  induction l1 with
  | nil => simp [List.find?] at h
  | cons x rest ih =>
    by_cases hx : p x = true
    · rw [List.find?_cons_of_pos _ hx] at h
      rw [List.cons_append, List.find?_cons_of_pos _ hx]
      exact h
    · rw [List.find?_cons_of_neg _ (by simpa using hx)] at h
      rw [List.cons_append, List.find?_cons_of_neg _ (by simpa using hx)]
      exact ih h

theorem find?_append_none {α : Type} {p : α → Bool} {l1 : List α} (l2 : List α)
    (h : l1.find? p = none) : (l1 ++ l2).find? p = l2.find? p := by
  induction l1 with
  | nil => rfl
  | cons x rest ih =>
    by_cases hx : p x = true
    · rw [List.find?_cons_of_pos _ hx] at h
      cases h
    · rw [List.find?_cons_of_neg _ (by simpa using hx)] at h
      rw [List.cons_append, List.find?_cons_of_neg _ (by simpa using hx)]
      exact ih h

theorem lookupProp_updateDescription_isSome (props : List (String × SchemaProperty))
    (n d m : String) :
    (lookupProp (updateDescription props n d) m).isSome = (lookupProp props m).isSome := by
  unfold lookupProp updateDescription
  induction props with
  | nil => rfl
  | cons kv rest ih =>
    by_cases hm : (kv.1 == m) = true
    · by_cases hn : (kv.1 == n) = true
      · simp [List.find?, hm, hn]
      · simp [List.find?, hm, hn]
    · by_cases hn : (kv.1 == n) = true
      · simp only [List.map_cons, if_pos hn, List.find?]
        simp only [hm]
        simpa using ih
      · simp only [List.map_cons, if_neg hn, List.find?]
        simp only [hm]
        simpa using ih

theorem lookupProp_append_of_isSome {props : List (String × SchemaProperty)}
    (more : List (String × SchemaProperty)) {n : String}
    (h : (lookupProp props n).isSome = true) :
    lookupProp (props ++ more) n = lookupProp props n := by
  unfold lookupProp at h ⊢
  cases hf : props.find? (fun kv => kv.1 == n) with
  | none => rw [hf] at h; simp at h
  | some kv => rw [find?_append_left more hf]

theorem lookupProp_append_self {props : List (String × SchemaProperty)}
    {n : String} (p : SchemaProperty) (h : lookupProp props n = none) :
    lookupProp (props ++ [(n, p)]) n = some p := by
  unfold lookupProp at h ⊢
  cases hf : props.find? (fun kv => kv.1 == n) with
  | some kv => rw [hf] at h; cases h
  | none =>
    rw [find?_append_none _ hf]
    simp [List.find?]

theorem schemaStep_lookup_mono {acc : List (String × SchemaProperty) × List String}
    {n : String} (t : Token) (h : (lookupProp acc.1 n).isSome = true) :
    (lookupProp (schemaStep acc t).1 n).isSome = true := by
  unfold schemaStep
  cases t with
  | text v => exact h
  | field f =>
    cases hl : lookupProp acc.1 (normalizeFieldName f.name) with
    | some p =>
      by_cases hd : (!(f.description == "") && descFalsy p.description) = true
      · simp only [hl, hd, if_true]
        rw [lookupProp_updateDescription_isSome]
        exact h
      · simp only [hl, hd, if_false]
        exact h
    | none =>
      by_cases h1 : (!(f.originalFlag == "")) = true
      · simp only [hl, h1, if_true]
        rw [lookupProp_append_of_isSome _ h]
        exact h
      · by_cases h2 : f.isArray = true
        · simp only [hl, h1, h2, if_true, if_false, Bool.false_eq_true]
          rw [lookupProp_append_of_isSome _ h]
          exact h
        · simp only [hl, h1, h2, if_false, Bool.false_eq_true]
          rw [lookupProp_append_of_isSome _ h]
          exact h

theorem schemaStep_registers (acc : List (String × SchemaProperty) × List String)
    (f : FieldData) :
    (lookupProp (schemaStep acc (Token.field f)).1 (normalizeFieldName f.name)).isSome
      = true := by
  cases hl : lookupProp acc.1 (normalizeFieldName f.name) with
  | some p =>
    by_cases hd : (!(f.description == "") && descFalsy p.description) = true
    · simp only [schemaStep, hl, hd, if_true]
      rw [lookupProp_updateDescription_isSome, hl]
      rfl
    · have hd' : (!(f.description == "") && descFalsy p.description) = false := by
        simpa using hd
      simp only [schemaStep, hl, hd', Bool.false_eq_true, if_false]
      rfl
  | none =>
    cases h1 : (f.originalFlag == "") with
    | false =>
      simp only [schemaStep, hl, h1, Bool.not_false, if_true]
      rw [lookupProp_append_self _ hl]
      rfl
    | true =>
      cases h2 : f.isArray with
      | true =>
        simp only [schemaStep, hl, h1, h2, Bool.not_true, Bool.false_eq_true,
          if_false, if_true]
        rw [lookupProp_append_self _ hl]
        rfl
      | false =>
        simp only [schemaStep, hl, h1, h2, Bool.not_true, Bool.false_eq_true,
          if_false]
        rw [lookupProp_append_self _ hl]
        rfl

theorem updateDescription_mem {props : List (String × SchemaProperty)}
    {n d : String} {kv : String × SchemaProperty}
    (h : kv ∈ updateDescription props n d) : ∃ kv0 ∈ props, kv.1 = kv0.1 := by
  unfold updateDescription at h
  rcases List.mem_map.mp h with ⟨kv0, hkv0, he⟩
  by_cases hn : (kv0.1 == n) = true
  · rw [if_pos hn] at he
    exact ⟨kv0, hkv0, by rw [← he]⟩
  · rw [if_neg hn] at he
    exact ⟨kv0, hkv0, by rw [← he]⟩

theorem schemaStep_keys_normalized
    {acc : List (String × SchemaProperty) × List String} (t : Token)
    (h : ∀ kv ∈ acc.1, normalizeFieldName kv.1 = kv.1) :
    ∀ kv ∈ (schemaStep acc t).1, normalizeFieldName kv.1 = kv.1 := by
  intro kv hkv
  cases t with
  | text v => exact h kv hkv
  | field f =>
    unfold schemaStep at hkv
    cases hl : lookupProp acc.1 (normalizeFieldName f.name) with
    | some p =>
      simp only [hl] at hkv
      by_cases hd : (!(f.description == "") && descFalsy p.description) = true
      · rw [if_pos hd] at hkv
        rcases updateDescription_mem hkv with ⟨kv0, hkv0, he⟩
        rw [he]
        exact h kv0 hkv0
      · rw [if_neg hd] at hkv
        exact h kv hkv
    | none =>
      simp only [hl] at hkv
      by_cases h1 : (!(f.originalFlag == "")) = true
      · simp only [h1, if_true] at hkv
        rcases List.mem_append.mp hkv with hm | hm
        · exact h kv hm
        · simp at hm
          subst hm
          exact normalizeFieldName_idem f.name
      · by_cases h2 : f.isArray = true
        · simp only [h1, h2, Bool.false_eq_true, if_false, if_true] at hkv
          rcases List.mem_append.mp hkv with hm | hm
          · exact h kv hm
          · simp at hm
            subst hm
            exact normalizeFieldName_idem f.name
        · simp only [h1, h2, Bool.false_eq_true, if_false] at hkv
          rcases List.mem_append.mp hkv with hm | hm
          · exact h kv hm
          · simp at hm
            subst hm
            exact normalizeFieldName_idem f.name

theorem schemaStep_required_lookup
    {acc : List (String × SchemaProperty) × List String} (t : Token)
    (h : ∀ n ∈ acc.2, (lookupProp acc.1 n).isSome = true) :
    ∀ n ∈ (schemaStep acc t).2, (lookupProp (schemaStep acc t).1 n).isSome = true := by
  intro n hn
  have hmono : ∀ m, (lookupProp acc.1 m).isSome = true →
      (lookupProp (schemaStep acc t).1 m).isSome = true :=
    fun m hm => schemaStep_lookup_mono t hm
  cases t with
  | text v => exact h n hn
  | field f =>
    unfold schemaStep at hn
    cases hl : lookupProp acc.1 (normalizeFieldName f.name) with
    | some p =>
      simp only [hl] at hn
      by_cases hq : (f.required && !(acc.2.contains (normalizeFieldName f.name))) = true
      · simp only [hq, if_true] at hn
        rcases List.mem_append.mp hn with hm | hm
        · exact hmono n (h n hm)
        · simp at hm
          subst hm
          exact hmono _ (by rw [hl]; rfl)
      · have hq' : (f.required && !(acc.2.contains (normalizeFieldName f.name))) = false := by
          simpa using hq
        simp only [hq', Bool.false_eq_true, if_false] at hn
        exact hmono n (h n hn)
    | none =>
      simp only [hl] at hn
      by_cases h1 : (!(f.originalFlag == "")) = true
      · simp only [h1, if_true] at hn
        exact hmono n (h n hn)
      · by_cases hq : (f.required && !(acc.2.contains (normalizeFieldName f.name))) = true
        · by_cases h2 : f.isArray = true
          · simp only [h1, h2, hq, Bool.false_eq_true, if_false, if_true] at hn
            rcases List.mem_append.mp hn with hm | hm
            · exact hmono n (h n hm)
            · simp at hm
              subst hm
              have := schemaStep_registers acc f
              exact this
          · simp only [h1, h2, hq, Bool.false_eq_true, if_false, if_true] at hn
            rcases List.mem_append.mp hn with hm | hm
            · exact hmono n (h n hm)
            · simp at hm
              subst hm
              exact schemaStep_registers acc f
        · have hq' : (f.required && !(acc.2.contains (normalizeFieldName f.name))) = false := by
            simpa using hq
          by_cases h2 : f.isArray = true
          · simp only [h1, h2, hq', Bool.false_eq_true, if_false, if_true] at hn
            exact hmono n (h n hn)
          · simp only [h1, h2, hq', Bool.false_eq_true, if_false] at hn
            exact hmono n (h n hn)

theorem generateInputSchema_keys_normalized (bp : Blueprint) :
    ∀ kv ∈ (generateInputSchema bp).properties, normalizeFieldName kv.1 = kv.1 := by
  show ∀ kv ∈ (bp.shellWords.foldl (fun acc word => word.foldl schemaStep acc)
      ([], [])).1, normalizeFieldName kv.1 = kv.1
  exact foldl_preserve
    (fun acc => ∀ kv ∈ acc.1, normalizeFieldName kv.1 = kv.1)
    (fun acc word => word.foldl schemaStep acc)
    (fun acc word hacc => foldl_preserve
      (fun b => ∀ kv ∈ b.1, normalizeFieldName kv.1 = kv.1) schemaStep
      (fun a t ha => schemaStep_keys_normalized t ha) word acc hacc)
    bp.shellWords ([], []) (by simp)

theorem generateInputSchema_required_lookup (bp : Blueprint) :
    ∀ n ∈ (generateInputSchema bp).required,
      (lookupProp (generateInputSchema bp).properties n).isSome = true := by
  show ∀ n ∈ (bp.shellWords.foldl (fun acc word => word.foldl schemaStep acc)
      ([], [])).2,
    (lookupProp (bp.shellWords.foldl (fun acc word => word.foldl schemaStep acc)
      ([], [])).1 n).isSome = true
  exact foldl_preserve
    (fun acc => ∀ n ∈ acc.2, (lookupProp acc.1 n).isSome = true)
    (fun acc word => word.foldl schemaStep acc)
    (fun acc word hacc => foldl_preserve
      (fun b => ∀ n ∈ b.2, (lookupProp b.1 n).isSome = true) schemaStep
      (fun a t ha => schemaStep_required_lookup t ha) word acc hacc)
    bp.shellWords ([], []) (by simp)

theorem lookupProp_mem {props : List (String × SchemaProperty)} {n : String}
    (h : (lookupProp props n).isSome = true) :
    ∃ kv ∈ props, kv.1 = n := by
  unfold lookupProp at h
  cases hf : props.find? (fun kv => kv.1 == n) with
  | none => rw [hf] at h; simp at h
  | some kv =>
    have hmem := List.mem_of_find?_eq_some hf
    have hpred := List.find?_some hf
    simp at hpred
    exact ⟨kv, hmem, hpred⟩

theorem generateInputSchema_required_normalized (bp : Blueprint) :
    ∀ n ∈ (generateInputSchema bp).required, normalizeFieldName n = n := by
  intro n hn
  rcases lookupProp_mem (generateInputSchema_required_lookup bp n hn) with ⟨kv, hkv, he⟩
  rw [← he]
  exact generateInputSchema_keys_normalized bp kv hkv

theorem generateInputSchema_field_lookup {bp : Blueprint} {word : List Token}
    {f : FieldData} (hw : word ∈ bp.shellWords) (ht : Token.field f ∈ word) :
    (lookupProp (generateInputSchema bp).properties
      (normalizeFieldName f.name)).isSome = true := by
  show (lookupProp (bp.shellWords.foldl (fun acc word => word.foldl schemaStep acc)
      ([], [])).1 (normalizeFieldName f.name)).isSome = true
  rcases List.append_of_mem hw with ⟨w1, w2, hwe⟩
  rcases List.append_of_mem ht with ⟨t1, t2, hte⟩
  rw [hwe, hte, List.foldl_append, List.foldl_cons]
  have hbase : (lookupProp ((t1 ++ Token.field f :: t2).foldl schemaStep
      (w1.foldl (fun acc word => word.foldl schemaStep acc) ([], []))).1
      (normalizeFieldName f.name)).isSome = true := by
    rw [List.foldl_append, List.foldl_cons]
    exact foldl_preserve
      (fun acc => (lookupProp acc.1 (normalizeFieldName f.name)).isSome = true)
      schemaStep (fun a t ha => schemaStep_lookup_mono t ha) t2 _
      (schemaStep_registers _ f)
  exact foldl_preserve
    (fun acc => (lookupProp acc.1 (normalizeFieldName f.name)).isSome = true)
    (fun acc word => word.foldl schemaStep acc)
    (fun acc word hacc => foldl_preserve
      (fun b => (lookupProp b.1 (normalizeFieldName f.name)).isSome = true) schemaStep
      (fun a t ha => schemaStep_lookup_mono t ha) word acc hacc)
    w2 _ hbase

theorem getParam_append {params extra : Params} {k : String}
    (h : getParam extra k = none) :
    getParam (params ++ extra) k = getParam params k := by
  unfold getParam at h ⊢
  cases hf : params.find? (fun kv => kv.1 == k) with
  | some kv => rw [find?_append_left extra hf]
  | none =>
    rw [find?_append_none extra hf]
    cases hf2 : extra.find? (fun kv => kv.1 == k) with
    | none => rfl
    | some kv =>
      simp only [hf2] at h
      cases h

theorem getParam_extra_none {props : List (String × SchemaProperty)} {extra : Params}
    {k : String}
    (hextra : ∀ kv ∈ extra, lookupProp props (normalizeFieldName kv.1) = none)
    (hk : (lookupProp props (normalizeFieldName k)).isSome = true) :
    getParam extra k = none := by
  unfold getParam
  cases hf : extra.find? (fun kv => kv.1 == k) with
  | none => rfl
  | some kv =>
    have hmem := List.mem_of_find?_eq_some hf
    have hpred := List.find?_some hf
    simp at hpred
    have hnone := hextra kv hmem
    rw [hpred] at hnone
    rw [hnone] at hk
    simp at hk

theorem findParamValue_append {props : List (String × SchemaProperty)}
    {params extra : Params} {k : String}
    (hextra : ∀ kv ∈ extra, lookupProp props (normalizeFieldName kv.1) = none)
    (hk : (lookupProp props (normalizeFieldName k)).isSome = true) :
    findParamValue (params ++ extra) k = findParamValue params k := by
  have h1 : getParam (params ++ extra) k = getParam params k :=
    getParam_append (getParam_extra_none hextra hk)
  have hk2 : (lookupProp props (normalizeFieldName (normalizeFieldName k))).isSome = true := by
    rw [normalizeFieldName_idem]
    exact hk
  have h2 : getParam (params ++ extra) (normalizeFieldName k) =
      getParam params (normalizeFieldName k) :=
    getParam_append (getParam_extra_none hextra hk2)
  have hk3 : (lookupProp props (normalizeFieldName (underscoresToDashes k))).isSome = true := by
    rw [normalizeFieldName_dashed]
    exact hk
  have h3 : getParam (params ++ extra) (underscoresToDashes k) =
      getParam params (underscoresToDashes k) :=
    getParam_append (getParam_extra_none hextra hk3)
  unfold findParamValue
  rw [h1, h2, h3]

theorem checkRequired_append {params extra : Params}
    {props : List (String × SchemaProperty)} :
    ∀ {l : List String},
      (∀ kv ∈ extra, lookupProp props (normalizeFieldName kv.1) = none) →
      (∀ n ∈ l, (lookupProp props (normalizeFieldName n)).isSome = true) →
      checkRequired (params ++ extra) l = checkRequired params l := by
  intro l
  induction l with
  | nil => intro _ _; rfl
  | cons n rest ih =>
    intro hextra hl
    unfold checkRequired
    rw [findParamValue_append hextra (hl n (List.mem_cons_self _ _))]
    by_cases h : (findParamValue params n).isSome = true
    · simp only [h, if_true]
      exact ih hextra (fun m hm => hl m (List.mem_cons_of_mem _ hm))
    · have h' : (findParamValue params n).isSome = false := by simpa using h
      simp only [h', Bool.false_eq_true, if_false]

theorem checkArrayParams_extra_none {schema : Schema} {extra : Params}
    (hextra : ∀ kv ∈ extra,
      lookupProp schema.properties (normalizeFieldName kv.1) = none) :
    checkArrayParams schema extra = none := by
  rw [checkArrayParams_eq_none_iff]
  intro kv hkv hty
  unfold propTypeIs at hty
  rw [hextra kv hkv] at hty
  cases hty

theorem checkArrayParams_append {schema : Schema} {params extra : Params}
    (hextra : ∀ kv ∈ extra,
      lookupProp schema.properties (normalizeFieldName kv.1) = none) :
    checkArrayParams schema (params ++ extra) = checkArrayParams schema params := by
  induction params with
  | nil =>
    show checkArrayParams schema extra = checkArrayParams schema []
    rw [checkArrayParams_extra_none hextra]
    rfl
  | cons kv rest ih =>
    rw [List.cons_append, checkArrayParams_cons, checkArrayParams_cons, ih]

theorem foldl_inclusion_congr {params1 params2 : Params} :
    ∀ (tokens : List Token),
      (∀ f, Token.field f ∈ tokens →
        findParamValue params1 f.name = findParamValue params2 f.name) →
      ∀ acc, tokens.foldl (inclusionStep params1) acc =
        tokens.foldl (inclusionStep params2) acc := by
  intro tokens
  induction tokens with
  | nil => intro _ acc; rfl
  | cons t rest ih =>
    intro hfv acc
    have hstep : inclusionStep params1 acc t = inclusionStep params2 acc t := by
      cases t with
      | text v => rfl
      | field f =>
        simp only [inclusionStep]
        rw [hfv f (List.mem_cons_self _ _)]
    rw [List.foldl_cons, List.foldl_cons, hstep]
    exact ih (fun f hf => hfv f (List.mem_cons_of_mem _ hf)) _

theorem foldl_concat_congr {params1 params2 : Params} :
    ∀ (tokens : List Token),
      (∀ f, Token.field f ∈ tokens →
        findParamValue params1 f.name = findParamValue params2 f.name) →
      ∀ acc, tokens.foldl (concatStep params1) acc =
        tokens.foldl (concatStep params2) acc := by
  intro tokens
  induction tokens with
  | nil => intro _ acc; rfl
  | cons t rest ih =>
    intro hfv acc
    have hstep : concatStep params1 acc t = concatStep params2 acc t := by
      cases t with
      | text v => rfl
      | field f =>
        simp only [concatStep]
        rw [hfv f (List.mem_cons_self _ _)]
    rw [List.foldl_cons, List.foldl_cons, hstep]
    exact ih (fun f hf => hfv f (List.mem_cons_of_mem _ hf)) _

theorem renderShellWord_append {bp : Blueprint} {params extra : Params}
    {tokens : List Token}
    (hextra : ∀ kv ∈ extra,
      lookupProp (generateInputSchema bp).properties (normalizeFieldName kv.1) = none)
    (htok : ∀ f, Token.field f ∈ tokens →
      (lookupProp (generateInputSchema bp).properties
        (normalizeFieldName f.name)).isSome = true) :
    renderShellWord bp tokens (params ++ extra) = renderShellWord bp tokens params := by
  have hfv : ∀ f, Token.field f ∈ tokens →
      findParamValue (params ++ extra) f.name = findParamValue params f.name :=
    fun f hf => findParamValue_append hextra (htok f hf)
  have hflags : inclusionFlags (params ++ extra) tokens = inclusionFlags params tokens :=
    foldl_inclusion_congr tokens hfv (false, true)
  have hconcat : concatParts (params ++ extra) tokens = concatParts params tokens :=
    foldl_concat_congr tokens hfv []
  cases tokens with
  | nil => rfl
  | cons t rest =>
    cases rest with
    | nil =>
      cases t with
      | text v =>
        simp only [renderShellWord, hflags, hconcat]
      | field f =>
        have h1 := hfv f (List.mem_cons_self _ _)
        simp only [renderShellWord, hflags, hconcat,
          renderArrayField, renderSingleOptionalField, h1]
    | cons t2 rest2 =>
      simp only [renderShellWord, hflags, hconcat]

theorem buildCommandArgs_ok_cases {bp : Blueprint} {params : Params}
    {l : List String} (h : buildCommandArgs bp params = Except.ok l) :
    checkRequired params (generateInputSchema bp).required = none ∧
    checkArrayParams (generateInputSchema bp) params = none := by
  unfold buildCommandArgs at h
  cases hcr : checkRequired params (generateInputSchema bp).required with
  | some n =>
    simp only [hcr] at h
    cases h
  | none =>
    simp only [hcr] at h
    cases hca : checkArrayParams (generateInputSchema bp) params with
    | some kv =>
      cases kv
      simp only [hca] at h
      cases h
    | none => exact ⟨rfl, rfl⟩

theorem foldl_congr_mem {α β : Type} {f g : α → β → α} :
    ∀ (l : List β), (∀ b ∈ l, ∀ a, f a b = g a b) →
      ∀ a, l.foldl f a = l.foldl g a := by
  intro l
  induction l with
  | nil => intro _ a; rfl
  | cons b rest ih =>
    intro h a
    rw [List.foldl_cons, List.foldl_cons, h b (List.mem_cons_self _ _) a]
    exact ih (fun b2 hb2 a2 => h b2 (List.mem_cons_of_mem _ hb2) a2) _

/-- C10: rendering ignores extraneous parameters: whenever buildCommandArgs
succeeds on a parameter map, appending entries whose dash-to-underscore
normalized keys are not schema property names neither changes the rendered
argument list nor causes any error. -/
theorem c10_extraneous_params :
    ∀ (bp : Blueprint) (params extra : Params) (l : List String),
      buildCommandArgs bp params = Except.ok l →
      (∀ kv ∈ extra,
        lookupProp (generateInputSchema bp).properties (normalizeFieldName kv.1) = none) →
      buildCommandArgs bp (params ++ extra) = Except.ok l := by
  intro bp params extra l h hextra
  obtain ⟨hcr, hca⟩ := buildCommandArgs_ok_cases h
  have hreq : ∀ n ∈ (generateInputSchema bp).required,
      (lookupProp (generateInputSchema bp).properties (normalizeFieldName n)).isSome = true := by
    intro n hn
    rw [generateInputSchema_required_normalized bp n hn]
    exact generateInputSchema_required_lookup bp n hn
  have hcr2 : checkRequired (params ++ extra) (generateInputSchema bp).required = none := by
    rw [checkRequired_append hextra hreq]
    exact hcr
  have hca2 : checkArrayParams (generateInputSchema bp) (params ++ extra) = none := by
    rw [checkArrayParams_append hextra]
    exact hca
  rw [buildCommandArgs_ok_eq hcr2 hca2]
  rw [buildCommandArgs_ok_eq hcr hca] at h
  rw [← h]
  congr 1
  apply foldl_congr_mem
  intro word hword a
  have hrw : renderShellWord bp word (params ++ extra) = renderShellWord bp word params := by
    apply renderShellWord_append hextra
    intro f hf
    exact generateInputSchema_field_lookup hword hf
  rw [hrw]

/-- Witness for C10 at a concrete input: appending an unrelated key to the
empty parameter map leaves the rendering of echo hello unchanged. -/
theorem c10_witness :
    buildCommandArgs ⟨"echo", [[Token.text "echo"], [Token.text "hello"]]⟩
      ([] ++ [("zzz", Value.str "1")]) = Except.ok ["echo", "hello"] :=
  c10_extraneous_params ⟨"echo", [[Token.text "echo"], [Token.text "hello"]]⟩
    [] [("zzz", Value.str "1")] ["echo", "hello"] rfl
    (by
      intro kv hkv
      simp at hkv
      rw [hkv]
      rfl)
